import Mathlib

/-!
Shallow embedding of `sync_git.py` (reddit-wiki-sync): a tool that mirrors a
subreddit wiki's page revision history into a git repository, one commit per
revision.  The pure logic is translated function by function; the two external
collaborators are modelled at the subprocess boundary:

* the git CLI is modelled by `GitState` (working tree, HEAD tree, commit log)
  together with `gitCommitCmd` (the `git add` + `git commit` pair, which exits
  nonzero when the staged content equals what HEAD already records) and
  `gitLogOutput` (the text of `git log -n 1 --pretty=medium -- path` for the
  most recent commit touching a path);
* the reddit API is modelled by `Page` / `RevisionData` / `RevisionRef`
  (PRAW hands the sync code lightweight dicts carrying `id` and `page`;
  `save_revision` re-materializes the full record via `page.revision(id)`).
-/

deriving instance DecidableEq for Except

namespace WikiSync

/-- One nibble rendered as a lowercase hex character (Python `'%x'`). -/
def nibbleChar (n : Nat) : Char :=
  if n < 10 then Char.ofNat (48 + n) else Char.ofNat (87 + n)

/-- Hex digits as accepted by `int(s, 16)` inside `uuid.UUID`: `0`-`9`,
`a`-`f`, `A`-`F` (stated on code points). -/
def isHexChar (c : Char) : Bool :=
  (48 ≤ c.toNat && c.toNat ≤ 57) || (97 ≤ c.toNat && c.toNat ≤ 102) ||
    (65 ≤ c.toNat && c.toNat ≤ 70)

/-- Numeric value of a hex digit. -/
def hexVal (c : Char) : Nat :=
  if c.toNat ≤ 57 then c.toNat - 48
  else if 97 ≤ c.toNat then c.toNat - 97 + 10
  else c.toNat - 65 + 10

/-- Worker for `removeSub`, structural on a fuel argument so that the
definition evaluates by plain kernel reduction.  The fuel is instantiated
with the list length, which the recursion never exhausts. -/
def removeSubFuel (pat : List Char) : Nat → List Char → List Char
  | _, [] => []
  | 0, l => l
  | fuel + 1, c :: cs =>
    if pat.isPrefixOf (c :: cs) ∧ pat ≠ [] then
      removeSubFuel pat fuel ((c :: cs).drop pat.length)
    else
      c :: removeSubFuel pat fuel cs

/-- Remove every (leftmost-first, non-overlapping) occurrence of `pat`:
Python `str.replace(pat, '')`. -/
def removeSub (pat : List Char) (l : List Char) : List Char :=
  removeSubFuel pat l.length l

/-- The opening curly-brace character. -/
def lbrace : Char := Char.ofNat 123

/-- The closing curly-brace character. -/
def rbrace : Char := Char.ofNat 125

def isBraceChar (c : Char) : Bool := c == lbrace || c == rbrace

/-- Python `str.strip(chars)`: remove characters of the set from both ends. -/
def stripChars (p : Char → Bool) (l : List Char) : List Char :=
  ((l.dropWhile p).reverse.dropWhile p).reverse

/-- The accepting/normalizing front half of Python's `uuid.UUID(hex)`
constructor: drop `urn:` and `uuid:`, strip curly braces from the ends, drop
every hyphen, and require exactly 32 hex digits.  (The exotic corners of
`int(s, 16)` — underscore separators and an explicit leading sign — are not
modelled; no input in this development exercises them.)  Returns the 32
nibble values of the accepted identifier. -/
def pyUUID (s : String) : Option (List Nat) :=
  let step1 := removeSub ("urn:".toList) s.toList
  let step2 := removeSub ("uuid:".toList) step1
  let step3 := stripChars isBraceChar step2
  let step4 := step3.filter (fun c => c != '-')
  if step4.length = 32 ∧ step4.all isHexChar then some (step4.map hexVal) else none

/-- Hyphens in the canonical 8-4-4-4-12 layout. -/
def hyphenate (cs : List Char) : List Char :=
  cs.take 8 ++ '-' :: ((cs.drop 8).take 4 ++ '-' :: ((cs.drop 12).take 4 ++
    '-' :: ((cs.drop 16).take 4 ++ '-' :: cs.drop 20)))

/-- `str(uuid.UUID(...))`: the canonical lowercase hyphenated rendering. -/
def uuidCanonical (ns : List Nat) : String :=
  String.mk (hyphenate (ns.map nibbleChar))

/-- Last whitespace-delimited token of a character list:
`s.strip().split()[-1]`, with `none` for the `IndexError` case (no token). -/
def lastTokList (l : List Char) : Option (List Char) :=
  let r := l.reverse.dropWhile Char.isWhitespace
  if r.isEmpty then none
  else some ((r.takeWhile (fun c => !c.isWhitespace)).reverse)

def lastWsToken (s : String) : Option String :=
  (lastTokList s.toList).map String.mk

/-- One wiki revision as served by the reddit API (`WikiPage.revisions()` /
`page.revision(id)`): id, author (`None` for a deleted account), UTC
timestamp, optional edit reason, and the full page text. -/
structure RevisionData where
  id : String
  author : Option String
  timestamp : Int
  reason : Option String
  content : String
deriving Repr, DecidableEq

/-- A wiki page: name, mod settings (`permlevel` and `listed`), and its full
revision history, newest first, as `page.revisions(limit=None)` yields it. -/
structure Page where
  name : String
  permlevel : Nat
  listed : Bool
  history : List RevisionData
deriving Repr, DecidableEq

/-- The lightweight dict PRAW yields from revision generators: the revision
id plus the owning page handle. -/
structure RevisionRef where
  id : String
  page : Page
deriving Repr, DecidableEq

def pageRevisionRefs (page : Page) : List RevisionRef :=
  page.history.map (fun d => RevisionRef.mk d.id page)

/-- `page.revision(id)`: materialize the full revision record. -/
def pageRevision (page : Page) (id : String) : Option RevisionData :=
  page.history.find? (fun d => d.id == id)

/-- One git commit as pinned down by `add_commit`'s environment variables. -/
structure GitCommit where
  path : String
  message : String
  authorName : String
  authorEmail : String
  authorDate : Int
  committerName : String
  committerEmail : String
  committerDate : Int
deriving Repr, DecidableEq

/-- The git repository at the subprocess boundary: the working tree (also the
on-disk files that `file_path.exists()` sees), the tree recorded at HEAD, and
the commit log, newest first.  The association lists are maps: `lookup`
takes the most recently added binding. -/
structure GitState where
  workdir : List (String × String)
  headTree : List (String × String)
  log : List GitCommit
deriving Repr, DecidableEq

inductive GitError where
  | nothingToCommit
deriving Repr, DecidableEq

/-- `git add <path>; git commit -m <msg>`: commit the working-tree content of
`path`.  Git exits nonzero when nothing is staged or the staged content
equals what HEAD already records for the path. -/
def gitCommitCmd (st : GitState) (c : GitCommit) : Except GitError GitState :=
  match st.workdir.lookup c.path with
  | none => .error .nothingToCommit
  | some content =>
    if st.headTree.lookup c.path == some content then .error .nothingToCommit
    else .ok (GitState.mk st.workdir ((c.path, content) :: st.headTree) (c :: st.log))

/-- The configuration the source reads from globals: `subreddit.display_name`
and `CONFIG["email"]`, the optional commit-email override. -/
structure Config where
  subredditName : String
  email : Option String
deriving Repr, DecidableEq

/-- Python f-string interpolation of an `Optional[str]`: `None` renders as
the four-character string `None`. -/
def pyFStrOpt : Option String → String
  | some s => s
  | none => "None"

/-- The email chosen by `add_commit`: the override when it is truthy,
otherwise the derived `<author>@<subreddit>.reddit` address. -/
def commitEmail (cfg : Config) (commit_author : Option String) : String :=
  match cfg.email with
  | some e =>
    if e = "" then pyFStrOpt commit_author ++ "@" ++ cfg.subredditName ++ ".reddit" else e
  | none => pyFStrOpt commit_author ++ "@" ++ cfg.subredditName ++ ".reddit"

/-- `commit_author if commit_author else "[deleted]"`. -/
def commitName (commit_author : Option String) : String :=
  match commit_author with
  | some a => if a = "" then "[deleted]" else a
  | none => "[deleted]"

/-- `add_commit`: stage the file and run `git commit` with explicit identity
and dates.  `subprocess.run` is invoked without `check=True`, so a nonzero
exit status of git is ignored and the prior state is kept. -/
def add_commit (cfg : Config) (st : GitState) (file_path : String)
    (commit_timestamp : Int) (commit_author : Option String)
    (commit_message : String) : GitState :=
  let c : GitCommit :=
    GitCommit.mk file_path commit_message (commitName commit_author)
      (commitEmail cfg commit_author) commit_timestamp (commitName commit_author)
      (commitEmail cfg commit_author) commit_timestamp
  match gitCommitCmd st c with
  | .ok st2 => st2
  | .error _ => st

/-- The `git log -n 1 --pretty=medium` text for one commit.  The sha is a
fixed placeholder; what matters to the caller is the shape of the header, in
particular that the header's final token (the timezone offset of the `Date:`
line) never parses as a UUID. -/
def gitLogMedium (c : GitCommit) : String :=
  "commit 0000000000000000000000000000000000000000\nAuthor: " ++ c.authorName ++
    " <" ++ c.authorEmail ++ ">\nDate:   " ++ toString c.authorDate ++ " +0000" ++
    "\n\n    " ++ c.message

/-- `git log -n 1 --pretty=medium -- path`: the most recent commit whose diff
touches `path` (every commit in this model touches exactly its `path` field),
or empty output when no commit touches it. -/
def gitLogOutput (st : GitState) (path : String) : String :=
  match st.log.find? (fun c => c.path == path) with
  | none => ""
  | some c => gitLogMedium c

inductive SyncError where
  | indexError
  | apiError
deriving Repr, DecidableEq

/-- `get_last_saved_revision`: recover the sync cursor for a path from the
most recent commit message.  `uuid.UUID`'s `ValueError` is caught (giving
`none`), but `output_list[-1]` on empty `git log` output raises an uncaught
`IndexError`. -/
def get_last_saved_revision (st : GitState) (file_path : String) :
    Except SyncError (Option String) :=
  if (st.workdir.lookup file_path).isNone then .ok none
  else
    match lastWsToken (gitLogOutput st file_path) with
    | none => .error .indexError
    | some tok =>
      match pyUUID tok with
      | none => .ok none
      | some u => .ok (some (uuidCanonical u))

/-- The commit message built in `save_revision`:
`f"{reason}\n\n{id}" if reason else id` (an empty reason is falsy). -/
def commitMessageFor (reason : Option String) (revision_id : String) : String :=
  match reason with
  | some re => if re = "" then revision_id else re ++ "\n\n" ++ revision_id
  | none => revision_id

/-- `pathlib.Path(subreddit.display_name) / f"{name}.md"`. -/
def pagePath (cfg : Config) (pageName : String) : String :=
  cfg.subredditName ++ "/" ++ pageName ++ ".md"

/-- `save_revision`: re-materialize the revision from its dict form, write
the file, and commit it with the revision's own author and timestamp. -/
def save_revision (cfg : Config) (st : GitState) (r : RevisionRef) :
    Except SyncError GitState :=
  match pageRevision r.page r.id with
  | none => .error .apiError
  | some d =>
    let file_path := pagePath cfg r.page.name
    let st1 := GitState.mk ((file_path, d.content) :: st.workdir) st.headTree st.log
    let commit_message := commitMessageFor d.reason d.id
    .ok (add_commit cfg st1 file_path d.timestamp d.author commit_message)

/-- The loop of `get_recent_revisions`: walk the newest-first refs, stopping
(exclusively) at the cursor id; `revision_list.insert(0, r)` is a cons onto
the accumulator, so the accumulator holds the walked prefix reversed. -/
def collectNewer (lastId : String) : List RevisionRef → List RevisionRef → List RevisionRef
  | [], acc => acc
  | r :: rs, acc => if r.id == lastId then acc else collectNewer lastId rs (r :: acc)

def get_recent_revisions (page : Page) (last_revision : Option String) :
    List RevisionRef :=
  match last_revision with
  | none => (pageRevisionRefs page).reverse
  | some lastId => collectNewer lastId (pageRevisionRefs page) []

/-- `for revision in revisions: save_revision(revision)`. -/
def saveAll (cfg : Config) (st : GitState) : List RevisionRef → Except SyncError GitState
  | [] => .ok st
  | r :: rs =>
    match save_revision cfg st r with
    | .error e => .error e
    | .ok st2 => saveAll cfg st2 rs

def PERMLEVEL_MOD_ONLY : Nat := 2

/-- Python truthiness of an `Optional[list]`: `None` and `[]` are falsy. -/
def truthyList (l : Option (List String)) : Bool :=
  match l with
  | none => false
  | some xs => !xs.isEmpty

/-- The three guard returns at the top of `_handle_full_page`, in source
order: explicit ignore-list, mod-only pages, unlisted pages. -/
def fullPageSkip (ignore_list : Option (List String))
    (include_mod include_unlisted : Bool) (page : Page) : Bool :=
  if truthyList ignore_list && (ignore_list.getD []).contains page.name then true
  else if !include_mod && page.permlevel == PERMLEVEL_MOD_ONLY then true
  else if !include_unlisted && !page.listed then true
  else false

/-- `_handle_full_page`: filter, recover the cursor from the page's file,
fetch everything newer from the full history, and replay it oldest first. -/
def _handle_full_page (cfg : Config) (st : GitState) (page : Page)
    (ignore_list : Option (List String)) (include_mod include_unlisted : Bool) :
    Except SyncError GitState :=
  if fullPageSkip ignore_list include_mod include_unlisted page then .ok st
  else
    let page_path := pagePath cfg page.name
    match get_last_saved_revision st page_path with
    | .error e => .error e
    | .ok last_revision => saveAll cfg st (get_recent_revisions page last_revision)

/-- `_handle_revisions_for_page`: `revisions` is one page's slice of the
recent wiki-wide feed, oldest first.  The Python `for ... else` construct is
the `findIdx?` match: save everything after the cursor's position, and if no
element equals the recovered cursor fall back to `_handle_full_page(page)`
with that function's default arguments. -/
def _handle_revisions_for_page (cfg : Config) (st : GitState)
    (revisions : List RevisionRef) : Except SyncError GitState :=
  match revisions with
  | [] => .ok st
  | first :: _ =>
    let page := first.page
    let page_path := pagePath cfg page.name
    match get_last_saved_revision st page_path with
    | .error e => .error e
    | .ok last_revision =>
      match revisions.findIdx? (fun r => some r.id == last_revision) with
      | some index => saveAll cfg st (revisions.drop (index + 1))
      | none => _handle_full_page cfg st page none true true

/-- The `continue` chain in `main`'s recent-revisions loop, in source order:
explicit page list, ignore list, mod-only, unlisted. -/
def mainRecentSkip (page_list : Option (List String)) (ignore_list : List String)
    (include_mod include_unlisted : Bool) (page : Page) : Bool :=
  if truthyList page_list && !(page_list.getD []).contains page.name then true
  else if !ignore_list.isEmpty && ignore_list.contains page.name then true
  else if !include_mod && page.permlevel == PERMLEVEL_MOD_ONLY then true
  else if !include_unlisted && !page.listed then true
  else false

/-- Whether a wiki page is handled by `main` in full mode: `main` iterates
over the whole wiki when `page_list` is falsy (`if include_full and not
page_list`) and over exactly the named pages otherwise, calling
`_handle_full_page` with the policy's arguments each time. -/
def fullModeProcesses (page_list : Option (List String)) (ignore_list : List String)
    (include_mod include_unlisted : Bool) (page : Page) : Bool :=
  if truthyList page_list then
    (page_list.getD []).contains page.name &&
      !fullPageSkip (some ignore_list) include_mod include_unlisted page
  else
    !fullPageSkip (some ignore_list) include_mod include_unlisted page

/-! Derived notions used to state and prove the properties. -/

/-- The commit that `save_revision` asks git to create for one revision. -/
def mkCommit (cfg : Config) (page : Page) (d : RevisionData) : GitCommit :=
  GitCommit.mk (pagePath cfg page.name) (commitMessageFor d.reason d.id)
    (commitName d.author) (commitEmail cfg d.author) d.timestamp
    (commitName d.author) (commitEmail cfg d.author) d.timestamp

/-- The state after one successful `save_revision`: file written, tree
updated, commit prepended to the log. -/
def applyRev (cfg : Config) (page : Page) (st : GitState) (d : RevisionData) : GitState :=
  GitState.mk ((pagePath cfg page.name, d.content) :: st.workdir)
    ((pagePath cfg page.name, d.content) :: st.headTree)
    (mkCommit cfg page d :: st.log)

/-- The state after successfully replaying a list of revisions in order. -/
def replayState (cfg : Config) (page : Page) : GitState → List RevisionData → GitState
  | st, [] => st
  | st, d :: ds => replayState cfg page (applyRev cfg page st d) ds

/-- Every revision's content differs from the content recorded just before
it (first argument: what HEAD records for the page's file at the start).
Exactly when this holds does every `git commit` of a replay exit zero. -/
def contentsChainB : Option String → List RevisionData → Bool
  | _, [] => true
  | h, d :: ds => (some d.content != h) && contentsChainB (some d.content) ds

/-- `s` is the canonical rendering of a UUID, stated through the program's
own parser: parsing and re-rendering reproduces `s` exactly. -/
def canonicalUUIDStr (s : String) : Bool :=
  (pyUUID s).map uuidCanonical == some s

/-- The revision id a commit message encodes, per the Sync Cursor invariant:
its final whitespace-delimited token. -/
def encodedRevisionId (c : GitCommit) : Option String :=
  lastWsToken c.message

/-! Lemmas about the incremental diff. -/

lemma collectNewer_no_match (lastId : String) (l acc : List RevisionRef)
    (h : ∀ r ∈ l, r.id ≠ lastId) :
    collectNewer lastId l acc = l.reverse ++ acc := by
  induction l generalizing acc with
  | nil => simp [collectNewer]
  | cons r rs ih =>
    have hr : (r.id == lastId) = false := by
      simp only [beq_eq_false_iff_ne]
      exact h r (by simp)
    simp only [collectNewer, hr, Bool.false_eq_true, if_false, List.reverse_cons,
      List.append_assoc, List.singleton_append]
    exact ih (r :: acc) (fun x hx => h x (by simp [hx]))

lemma collectNewer_split (lastId : String) (pre : List RevisionRef) (cur : RevisionRef)
    (post acc : List RevisionRef) (hpre : ∀ r ∈ pre, r.id ≠ lastId)
    (hcur : cur.id = lastId) :
    collectNewer lastId (pre ++ cur :: post) acc = pre.reverse ++ acc := by
  induction pre generalizing acc with
  | nil =>
    have : (cur.id == lastId) = true := beq_iff_eq.mpr hcur
    simp [collectNewer, this]
  | cons r rs ih =>
    have hr : (r.id == lastId) = false := by
      simp only [beq_eq_false_iff_ne]
      exact hpre r (by simp)
    simp only [List.cons_append, collectNewer, hr, Bool.false_eq_true, if_false,
      List.reverse_cons, List.append_assoc, List.singleton_append]
    exact ih (r :: acc) (fun x hx => hpre x (by simp [hx]))

/-- C1: for every newest-first page history and cursor, the incremental diff
(`get_recent_revisions`) returns the whole history reversed when the cursor
is `none`; when the cursor id occurs in the history it returns exactly the
revisions that precede the cursor in the newest-first walk, reversed into
oldest-first order and excluding the cursor revision itself; and on an empty
history it returns the empty list (the function is total — no error). -/
theorem c1_incremental_diff (page : Page) :
    get_recent_revisions page none = (pageRevisionRefs page).reverse ∧
    (∀ lastId pre cur post,
      pageRevisionRefs page = pre ++ cur :: post → cur.id = lastId →
      (∀ r ∈ pre, r.id ≠ lastId) →
      get_recent_revisions page (some lastId) = pre.reverse ∧
      ∀ r ∈ get_recent_revisions page (some lastId), r.id ≠ lastId) ∧
    (page.history = [] → ∀ cursor, get_recent_revisions page cursor = []) := by
  refine ⟨rfl, ?_, ?_⟩
  · intro lastId pre cur post hsplit hcur hpre
    have hmain : get_recent_revisions page (some lastId) = pre.reverse := by
      simp only [get_recent_revisions, hsplit]
      simpa using collectNewer_split lastId pre cur post [] hpre hcur
    refine ⟨hmain, ?_⟩
    intro r hr
    rw [hmain, List.mem_reverse] at hr
    exact hpre r hr
  · intro hhist cursor
    have hrefs : pageRevisionRefs page = [] := by
      simp [pageRevisionRefs, hhist]
    cases cursor with
    | none => simp [get_recent_revisions, hrefs]
    | some lastId => simp [get_recent_revisions, hrefs, collectNewer]

def c1page : Page :=
  Page.mk "p" 0 true
    [RevisionData.mk "c" none 3 none "C", RevisionData.mk "b" none 2 none "B",
      RevisionData.mk "a" none 1 none "A"]

theorem c1_incremental_diff_witness :
    get_recent_revisions c1page (some "b") = [RevisionRef.mk "c" c1page].reverse ∧
    get_recent_revisions c1page none = (pageRevisionRefs c1page).reverse := by
  refine ⟨?_, (c1_incremental_diff c1page).1⟩
  exact ((c1_incremental_diff c1page).2.1 "b" [RevisionRef.mk "c" c1page]
    (RevisionRef.mk "b" c1page) [RevisionRef.mk "a" c1page] (by rfl) (by rfl)
    (by decide)).1

/-! Lemmas about the last-token extraction. -/

lemma toList_append (a b : String) : (a ++ b).toList = a.toList ++ b.toList := rfl

lemma string_mk_toList (s : String) : String.mk s.toList = s := rfl

lemma takeWhile_all (p : Char → Bool) (l : List Char) (h : ∀ x ∈ l, p x = true) :
    l.takeWhile p = l := by
  induction l with
  | nil => rfl
  | cons a as ih =>
    simp only [List.takeWhile_cons, h a (by simp), if_true]
    rw [ih (fun x hx => h x (by simp [hx]))]

lemma takeWhile_append_cons (p : Char → Bool) (xs : List Char) (y : Char)
    (ys : List Char) (h1 : ∀ x ∈ xs, p x = true) (h2 : p y = false) :
    (xs ++ y :: ys).takeWhile p = xs := by
  induction xs with
  | nil => simp [List.takeWhile_cons, h2]
  | cons a as ih =>
    simp only [List.cons_append, List.takeWhile_cons, h1 a (by simp), if_true]
    rw [ih (fun x hx => h1 x (by simp [hx]))]

lemma lastTokList_sep (p : List Char) (w : Char) (t : List Char)
    (hw : w.isWhitespace = true) (ht : t ≠ [])
    (htw : ∀ c ∈ t, c.isWhitespace = false) :
    lastTokList (p ++ w :: t) = some t := by
  obtain ⟨c, cs, hc⟩ : ∃ c cs, t.reverse = c :: cs := by
    cases hrev2 : t.reverse with
    | nil => exact absurd (by simpa using congrArg List.reverse hrev2) ht
    | cons c cs => exact ⟨c, cs, rfl⟩
  have hcw : c.isWhitespace = false := htw c (by
    have : c ∈ t.reverse := by simp [hc]
    simpa using this)
  have hcs : ∀ x ∈ cs, x.isWhitespace = false := by
    intro x hx
    exact htw x (by
      have : x ∈ t.reverse := by simp [hc, hx]
      simpa using this)
  have hrev : (p ++ w :: t).reverse = c :: (cs ++ w :: p.reverse) := by
    simp [List.reverse_append, hc]
  unfold lastTokList
  rw [hrev]
  rw [List.dropWhile_cons]
  simp only [hcw, Bool.false_eq_true, if_false, List.isEmpty_cons]
  have htake : ((c :: cs) ++ w :: p.reverse).takeWhile (fun x => !x.isWhitespace)
      = c :: cs := by
    refine takeWhile_append_cons _ _ _ _ ?_ (by simp [hw])
    intro x hx
    rcases List.mem_cons.mp hx with h | h
    · simp [h, hcw]
    · simp [hcs x h]
  simp only [List.cons_append] at htake
  rw [htake]
  have : (c :: cs).reverse = t := by
    rw [← hc, List.reverse_reverse]
  simp [this]

lemma lastTokList_token (t : List Char) (ht : t ≠ [])
    (htw : ∀ c ∈ t, c.isWhitespace = false) :
    lastTokList t = some t := by
  obtain ⟨c, cs, hc⟩ : ∃ c cs, t.reverse = c :: cs := by
    cases hrev2 : t.reverse with
    | nil => exact absurd (by simpa using congrArg List.reverse hrev2) ht
    | cons c cs => exact ⟨c, cs, rfl⟩
  have hcw : c.isWhitespace = false := htw c (by
    have : c ∈ t.reverse := by simp [hc]
    simpa using this)
  have hall : ∀ x ∈ c :: cs, (!x.isWhitespace) = true := by
    intro x hx
    have : x ∈ t := by
      have : x ∈ t.reverse := by simp [hc, hx]
      simpa using this
    simp [htw x this]
  unfold lastTokList
  rw [hc, List.dropWhile_cons]
  simp only [hcw, Bool.false_eq_true, if_false, List.isEmpty_cons]
  rw [takeWhile_all _ _ hall, ← hc, List.reverse_reverse]

lemma lastTokList_eq_none_iff (l : List Char) :
    lastTokList l = none ↔ ∀ c ∈ l, c.isWhitespace = true := by
  unfold lastTokList
  constructor
  · intro h c hc
    by_cases hws : (l.reverse.dropWhile Char.isWhitespace).isEmpty
    · have := List.dropWhile_eq_nil_iff.mp (List.isEmpty_iff.mp hws)
      exact this c (by simpa using hc)
    · simp [hws] at h
  · intro h
    have : l.reverse.dropWhile Char.isWhitespace = [] :=
      List.dropWhile_eq_nil_iff.mpr (fun x hx => h x (by simpa using hx))
    simp [this]

/-- String-level version: the final whitespace-delimited token of
`a ++ w ++ b` is `b` whenever `w` is a whitespace character and `b` is a
nonempty whitespace-free string. -/
lemma lastWsToken_sep (a : String) (w : Char) (b : String)
    (hw : w.isWhitespace = true) (hne : b.toList ≠ [])
    (hws : ∀ c ∈ b.toList, c.isWhitespace = false) :
    lastWsToken (a ++ String.mk [w] ++ b) = some b := by
  unfold lastWsToken
  have hlist : (a ++ String.mk [w] ++ b).toList = a.toList ++ w :: b.toList := by
    simp [toList_append]
  rw [hlist, lastTokList_sep a.toList w b.toList hw hne hws]
  simp [string_mk_toList]

/-- The message `save_revision` builds always has the revision id as its
final whitespace-delimited token, for ids that are nonempty and
whitespace-free. -/
lemma lastWsToken_commitMessageFor (reason : Option String) (id : String)
    (hne : id.toList ≠ []) (hws : ∀ c ∈ id.toList, c.isWhitespace = false) :
    lastWsToken (commitMessageFor reason id) = some id := by
  have hid : lastWsToken id = some id := by
    unfold lastWsToken
    rw [lastTokList_token id.toList hne hws]
    simp [string_mk_toList]
  cases reason with
  | none => simpa [commitMessageFor] using hid
  | some re =>
    by_cases hre : re = ""
    · simpa [commitMessageFor, hre] using hid
    · have hmsg : commitMessageFor (some re) id = re ++ "\n\n" ++ id := by
        simp [commitMessageFor, hre]
      rw [hmsg]
      have hshape : re ++ "\n\n" ++ id = (re ++ "\n") ++ String.mk ['\n'] ++ id := by
        have h2 : re ++ "\n" ++ String.mk ['\n'] = re ++ "\n\n" := by
          rw [String.append_assoc]
          congr 1
        rw [h2]
      rw [hshape]
      exact lastWsToken_sep (re ++ "\n") '\n' id (by decide) hne hws

/-- The final token of `git log --pretty=medium` output is the final token
of the commit message, for messages built by `save_revision` from a
well-formed revision id. -/
lemma lastWsToken_gitLogMedium (c : GitCommit) (reason : Option String) (id : String)
    (hmsg : c.message = commitMessageFor reason id)
    (hne : id.toList ≠ []) (hws : ∀ x ∈ id.toList, x.isWhitespace = false) :
    lastWsToken (gitLogMedium c) = some id := by
  obtain ⟨B, hout⟩ : ∃ B, gitLogMedium c = (B ++ "\n\n    ") ++ c.message :=
    ⟨_, rfl⟩
  have hB6 : (B ++ "\n\n    ").toList
      = (B.toList ++ ['\n', '\n', ' ', ' ', ' ']) ++ [' '] := by
    simp [toList_append]
  have hbare : lastWsToken ((B ++ "\n\n    ") ++ id) = some id := by
    unfold lastWsToken
    rw [toList_append, hB6, List.append_assoc, List.singleton_append]
    rw [lastTokList_sep _ ' ' id.toList (by decide) hne hws]
    simp [string_mk_toList]
  cases reason with
  | none =>
    rw [hout, hmsg]
    simpa [commitMessageFor] using hbare
  | some re =>
    by_cases hre : re = ""
    · rw [hout, hmsg]
      simpa [commitMessageFor, hre] using hbare
    · have hmsg2 : c.message = re ++ "\n\n" ++ id := by
        simp [hmsg, commitMessageFor, hre]
      rw [hout, hmsg2]
      unfold lastWsToken
      have hlist : ((B ++ "\n\n    ") ++ (re ++ "\n\n" ++ id)).toList
          = ((B.toList ++ ['\n', '\n', ' ', ' ', ' ', ' '] ++ re.toList ++ ['\n'])
              ++ '\n' :: id.toList) := by
        simp [toList_append]
      rw [hlist, lastTokList_sep _ '\n' id.toList (by decide) hne hws]
      simp [string_mk_toList]

/-! Lemmas about the UUID parser and its canonical rendering. -/

lemma hexVal_lt_16 (c : Char) (h : isHexChar c = true) : hexVal c < 16 := by
  unfold isHexChar at h
  simp only [Bool.or_eq_true, Bool.and_eq_true, decide_eq_true_eq] at h
  unfold hexVal
  by_cases h1 : c.toNat ≤ 57
  · rw [if_pos h1]
    omega
  · rw [if_neg h1]
    by_cases h2 : 97 ≤ c.toNat
    · rw [if_pos h2]
      omega
    · rw [if_neg h2]
      omega

lemma pyUUID_spec (s : String) (ns : List Nat) (h : pyUUID s = some ns) :
    ns.length = 32 ∧ ∀ n ∈ ns, n < 16 := by
  unfold pyUUID at h
  dsimp only at h
  split at h
  · rename_i hcond
    obtain ⟨hlen, hall⟩ := hcond
    obtain rfl : _ = ns := Option.some.inj h
    refine ⟨by rw [List.length_map]; exact hlen, ?_⟩
    intro n hn
    simp only [List.mem_map] at hn
    obtain ⟨c, hc, rfl⟩ := hn
    exact hexVal_lt_16 c (List.all_eq_true.mp hall c hc)
  · exact absurd h (by simp)

lemma nibbleChar_not_ws : ∀ n, n < 16 → (nibbleChar n).isWhitespace = false := by
  decide

lemma mem_hyphenate (c : Char) (cs : List Char) (h : c ∈ hyphenate cs) :
    c ∈ cs ∨ c = '-' := by
  unfold hyphenate at h
  simp only [List.mem_append, List.mem_cons] at h
  rcases h with h | h | h | h | h | h | h | h | h
  · exact Or.inl (List.take_subset _ _ h)
  · exact Or.inr h
  · exact Or.inl (List.drop_subset _ _ (List.take_subset _ _ h))
  · exact Or.inr h
  · exact Or.inl (List.drop_subset _ _ (List.take_subset _ _ h))
  · exact Or.inr h
  · exact Or.inl (List.drop_subset _ _ (List.take_subset _ _ h))
  · exact Or.inr h
  · exact Or.inl (List.drop_subset _ _ h)

lemma uuidCanonical_wellformed (ns : List Nat) (h : ∀ n ∈ ns, n < 16) :
    (uuidCanonical ns).toList ≠ [] ∧
      ∀ c ∈ (uuidCanonical ns).toList, c.isWhitespace = false := by
  constructor
  · show hyphenate (ns.map nibbleChar) ≠ []
    unfold hyphenate
    simp
  · intro c hc
    have hc2 : c ∈ hyphenate (ns.map nibbleChar) := hc
    rcases mem_hyphenate c _ hc2 with h1 | h1
    · simp only [List.mem_map] at h1
      obtain ⟨n, hn, rfl⟩ := h1
      exact nibbleChar_not_ws n (h n hn)
    · subst h1
      decide

lemma canonicalUUIDStr_spec (s : String) (h : canonicalUUIDStr s = true) :
    ∃ ns, pyUUID s = some ns ∧ uuidCanonical ns = s := by
  unfold canonicalUUIDStr at h
  cases hp : pyUUID s with
  | none => rw [hp] at h; simp at h
  | some ns =>
    rw [hp] at h
    refine ⟨ns, rfl, ?_⟩
    simpa using h

lemma canonicalUUIDStr_wellformed (s : String) (h : canonicalUUIDStr s = true) :
    s.toList ≠ [] ∧ ∀ c ∈ s.toList, c.isWhitespace = false := by
  obtain ⟨ns, hp, hc⟩ := canonicalUUIDStr_spec s h
  obtain ⟨-, hlt⟩ := pyUUID_spec s ns hp
  have := uuidCanonical_wellformed ns hlt
  rwa [hc] at this

/-- Cursor recovery reads back exactly the revision id of the most recent
commit touching the path, when that commit's message was built by
`save_revision` from a canonical revision id. -/
lemma get_last_saved_revision_head (st : GitState) (file_path : String)
    (c : GitCommit) (reason : Option String) (id : String)
    (hwd : (st.workdir.lookup file_path).isNone = false)
    (hlog : st.log.find? (fun x => x.path == file_path) = some c)
    (hmsg : c.message = commitMessageFor reason id)
    (hcanon : canonicalUUIDStr id = true) :
    get_last_saved_revision st file_path = .ok (some id) := by
  obtain ⟨ns, hp, hcan⟩ := canonicalUUIDStr_spec id hcanon
  obtain ⟨hne, hws⟩ := canonicalUUIDStr_wellformed id hcanon
  unfold get_last_saved_revision
  rw [hwd]
  simp only [Bool.false_eq_true, if_false]
  unfold gitLogOutput
  rw [hlog, lastWsToken_gitLogMedium c reason id hmsg hne hws]
  simp only [hp, hcan]

/-! Lemmas about the replay of a list of revisions. -/

lemma save_revision_ok (cfg : Config) (page : Page) (st : GitState) (d : RevisionData)
    (hres : pageRevision page d.id = some d)
    (hcontent : st.headTree.lookup (pagePath cfg page.name) ≠ some d.content) :
    save_revision cfg st (RevisionRef.mk d.id page) = .ok (applyRev cfg page st d) := by
  unfold save_revision
  rw [hres]
  unfold add_commit gitCommitCmd
  have hwd : List.lookup (pagePath cfg page.name)
      ((pagePath cfg page.name, d.content) :: st.workdir) = some d.content := by
    simp [List.lookup]
  dsimp only
  rw [hwd]
  have hne : (st.headTree.lookup (pagePath cfg page.name) == some d.content) = false :=
    beq_eq_false_iff_ne.mpr hcontent
  simp only [hne, Bool.false_eq_true, if_false]
  rfl

lemma saveAll_replay (cfg : Config) (page : Page) (ds : List RevisionData) :
    ∀ st, (∀ d ∈ ds, pageRevision page d.id = some d) →
    contentsChainB (st.headTree.lookup (pagePath cfg page.name)) ds = true →
    saveAll cfg st (ds.map (fun d => RevisionRef.mk d.id page))
      = .ok (replayState cfg page st ds) := by
  induction ds with
  | nil =>
    intro st _ _
    rfl
  | cons d ds ih =>
    intro st hres hchain
    simp only [contentsChainB, Bool.and_eq_true, bne_iff_ne] at hchain
    obtain ⟨hne, hrest⟩ := hchain
    simp only [List.map_cons, saveAll]
    rw [save_revision_ok cfg page st d (hres d (by simp)) (fun hEq => hne (by rw [hEq]))]
    show saveAll cfg (applyRev cfg page st d) _ = _
    rw [show replayState cfg page st (d :: ds)
        = replayState cfg page (applyRev cfg page st d) ds from rfl]
    refine ih (applyRev cfg page st d) (fun x hx => hres x (by simp [hx])) ?_
    have hlook : (applyRev cfg page st d).headTree.lookup (pagePath cfg page.name)
        = some d.content := by
      simp [applyRev, List.lookup]
    rw [hlook]
    exact hrest

lemma replayState_log (cfg : Config) (page : Page) (ds : List RevisionData) :
    ∀ st, (replayState cfg page st ds).log
      = (ds.map (mkCommit cfg page)).reverse ++ st.log := by
  induction ds with
  | nil => intro st; simp [replayState]
  | cons d ds ih =>
    intro st
    rw [show replayState cfg page st (d :: ds)
        = replayState cfg page (applyRev cfg page st d) ds from rfl, ih]
    simp [applyRev]

lemma replayState_lookups (cfg : Config) (page : Page) (ds : List RevisionData) :
    ∀ st d, ds.getLast? = some d →
    (replayState cfg page st ds).workdir.lookup (pagePath cfg page.name)
        = some d.content ∧
    (replayState cfg page st ds).headTree.lookup (pagePath cfg page.name)
        = some d.content ∧
    (replayState cfg page st ds).log.find? (fun x => x.path == pagePath cfg page.name)
        = some (mkCommit cfg page d) := by
  induction ds with
  | nil =>
    intro st d h
    simp at h
  | cons d0 ds ih =>
    intro st d h
    cases hds : ds with
    | nil =>
      subst hds
      obtain rfl : d0 = d := by simpa using h
      refine ⟨?_, ?_, ?_⟩ <;>
        simp [replayState, applyRev, mkCommit, List.lookup, List.find?]
    | cons e es =>
      subst hds
      rw [List.getLast?_cons_cons] at h
      exact ih (applyRev cfg page st d0) d h

lemma find_self_of_nodup (l : List RevisionData) (hnd : (l.map RevisionData.id).Nodup) :
    ∀ d ∈ l, l.find? (fun d2 => d2.id == d.id) = some d := by
  induction l with
  | nil =>
    intro d hd
    simp at hd
  | cons a l ih =>
    intro d hd
    simp only [List.map_cons, List.nodup_cons] at hnd
    obtain ⟨hna, hnl⟩ := hnd
    rcases List.mem_cons.mp hd with rfl | hdl
    · simp [List.find?]
    · have hne : (a.id == d.id) = false := by
        refine beq_eq_false_iff_ne.mpr ?_
        intro hEq
        exact hna (by rw [hEq]; exact List.mem_map_of_mem RevisionData.id hdl)
      simp only [List.find?, hne]
      exact ih hnl d hdl

/-- When the revision ids of a history are pairwise distinct, materializing
any of its revisions by id (`page.revision(id)`) returns that revision. -/
lemma pageRevision_self (page : Page) (hnd : (page.history.map RevisionData.id).Nodup) :
    ∀ d ∈ page.history, pageRevision page d.id = some d := by
  intro d hd
  unfold pageRevision
  exact find_self_of_nodup page.history hnd d hd

lemma contentsChainB_of_chain (ds : List RevisionData)
    (h : List.Chain' (fun a b : RevisionData => a.content ≠ b.content) ds) :
    contentsChainB none ds = true := by
  cases ds with
  | nil => rfl
  | cons d0 rest =>
    suffices haux : ∀ (l : List RevisionData) (prev : RevisionData),
        List.Chain' (fun a b : RevisionData => a.content ≠ b.content) (prev :: l) →
        contentsChainB (some prev.content) l = true by
      simp only [contentsChainB, Bool.and_eq_true, bne_iff_ne]
      exact ⟨by simp, haux rest d0 h⟩
    intro l
    induction l with
    | nil => intro prev _; rfl
    | cons e es ih =>
      intro prev hch
      rw [List.chain'_cons] at hch
      obtain ⟨hne, hch2⟩ := hch
      simp only [contentsChainB, Bool.and_eq_true, bne_iff_ne]
      refine ⟨by simpa using fun hEq => hne hEq.symm, ih e hch2⟩

lemma findIdxAux_append_singleton (p : RevisionRef → Bool) (xs : List RevisionRef)
    (y : RevisionRef) (hxs : ∀ x ∈ xs, p x = false) (hy : p y = true) :
    ∀ i, List.findIdx? p (xs ++ [y]) i = some (xs.length + i) := by
  induction xs with
  | nil =>
    intro i
    simp [List.findIdx?, hy]
  | cons a l ih =>
    intro i
    rw [List.cons_append, List.findIdx?]
    simp only [hxs a (by simp), Bool.false_eq_true, if_false]
    rw [ih (fun x hx => hxs x (by simp [hx])) (i + 1)]
    simp only [List.length_cons, Option.some.injEq]
    omega

/-- `_handle_full_page` on a page whose file has never been synced: the
cursor recovers as `none` and the whole history is replayed oldest first. -/
lemma handle_full_page_clean (cfg : Config) (page : Page) (st : GitState)
    (ign : Option (List String)) (m u : Bool)
    (hskip : fullPageSkip ign m u page = false)
    (hwd : st.workdir.lookup (pagePath cfg page.name) = none)
    (hht : st.headTree.lookup (pagePath cfg page.name) = none)
    (hnd : (page.history.map RevisionData.id).Nodup)
    (hchain : List.Chain' (fun a b : RevisionData => a.content ≠ b.content)
      page.history.reverse) :
    _handle_full_page cfg st page ign m u
      = .ok (replayState cfg page st page.history.reverse) := by
  unfold _handle_full_page
  rw [hskip]
  simp only [Bool.false_eq_true, if_false]
  have hrec : get_last_saved_revision st (pagePath cfg page.name) = .ok none := by
    unfold get_last_saved_revision
    rw [hwd]
    rfl
  rw [hrec]
  have hrefs : get_recent_revisions page none
      = page.history.reverse.map (fun d => RevisionRef.mk d.id page) := by
    simp [get_recent_revisions, pageRevisionRefs, List.map_reverse]
  dsimp only
  rw [hrefs]
  refine saveAll_replay cfg page page.history.reverse st ?_ ?_
  · intro d hd
    exact pageRevision_self page hnd d (by simpa using hd)
  · rw [hht]
    exact contentsChainB_of_chain page.history.reverse hchain

lemma findIdxAux_none (p : RevisionRef → Bool) (l : List RevisionRef)
    (h : ∀ x ∈ l, p x = false) : ∀ i, List.findIdx? p l i = none := by
  induction l with
  | nil =>
    intro i
    rfl
  | cons a as ih =>
    intro i
    rw [List.findIdx?]
    simp only [h a (by simp), Bool.false_eq_true, if_false]
    exact ih (fun x hx => h x (by simp [hx])) (i + 1)

lemma fullPageSkip_defaults (page : Page) : fullPageSkip none true true page = false := by
  simp [fullPageSkip, truthyList]

/-- C2: in recent mode, when the recovered cursor matches no revision id in
the page's bounded window (including a `none` cursor), the engine processes
the page through the full-history path: the handler's result is exactly the
result of `_handle_full_page` on that page (with the defaults the fallback
passes, which coincide with any policy the page already passed), so the same
gap-free revision sequence is committed and the windowed revisions are never
committed on their own. -/
theorem c2_window_fallback (cfg : Config) (st : GitState) (first : RevisionRef)
    (rest : List RevisionRef) (cursor : Option String)
    (hrec : get_last_saved_revision st (pagePath cfg first.page.name) = .ok cursor)
    (hnone : ∀ r ∈ first :: rest, some r.id ≠ cursor) :
    _handle_revisions_for_page cfg st (first :: rest)
        = _handle_full_page cfg st first.page none true true ∧
      ∀ ign m u, fullPageSkip ign m u first.page = false →
        _handle_revisions_for_page cfg st (first :: rest)
          = _handle_full_page cfg st first.page ign m u := by
  have hmain : _handle_revisions_for_page cfg st (first :: rest)
      = _handle_full_page cfg st first.page none true true := by
    unfold _handle_revisions_for_page
    dsimp only
    rw [hrec]
    dsimp only
    have hidx : List.findIdx? (fun r => some r.id == cursor) (first :: rest) = none := by
      refine findIdxAux_none _ _ ?_ 0
      intro x hx
      exact beq_eq_false_iff_ne.mpr (hnone x hx)
    rw [hidx]
  refine ⟨hmain, ?_⟩
  intro ign m u hskip
  rw [hmain]
  unfold _handle_full_page
  rw [hskip, fullPageSkip_defaults]

def c2page : Page :=
  Page.mk "w" 0 true [RevisionData.mk "00000000-0000-4000-8000-000000000001" none 1 none "A"]

theorem c2_window_fallback_witness :
    _handle_revisions_for_page (Config.mk "s" none) (GitState.mk [] [] [])
        [RevisionRef.mk "00000000-0000-4000-8000-000000000001" c2page]
      = _handle_full_page (Config.mk "s" none) (GitState.mk [] [] []) c2page none true true := by
  exact (c2_window_fallback (Config.mk "s" none) (GitState.mk [] [] [])
    (RevisionRef.mk "00000000-0000-4000-8000-000000000001" c2page) [] none
    (by rfl) (by decide)).1

/-- C3 (amended): after a completed run from a store with no prior data for
the page's file, in which every commit succeeded (consecutive revision
contents distinct) and the newest revision id is a canonical UUID string, a
second run with identical source state recovers the newest revision id as
the cursor, computes an empty diff, and commits nothing new — both when the
second run uses the full path and when it uses the recent path on any
bounded window ending at the newest revision. -/
theorem c3_idempotent_second_run (cfg : Config) (page : Page) (st : GitState)
    (ign : Option (List String)) (m u : Bool) (dNew : RevisionData)
    (rest : List RevisionData) (window wpre : List RevisionRef)
    (hhist : page.history = dNew :: rest)
    (hskip : fullPageSkip ign m u page = false)
    (hwd : st.workdir.lookup (pagePath cfg page.name) = none)
    (hht : st.headTree.lookup (pagePath cfg page.name) = none)
    (hnd : (page.history.map RevisionData.id).Nodup)
    (hchain : List.Chain' (fun a b : RevisionData => a.content ≠ b.content)
      page.history.reverse)
    (hcanon : canonicalUUIDStr dNew.id = true)
    (hwin : window = wpre ++ [RevisionRef.mk dNew.id page])
    (hwpre : ∀ r ∈ wpre, r.id ≠ dNew.id)
    (hwpage : ∀ r ∈ window, r.page = page) :
    _handle_full_page cfg st page ign m u
        = .ok (replayState cfg page st page.history.reverse) ∧
    get_last_saved_revision (replayState cfg page st page.history.reverse)
        (pagePath cfg page.name) = .ok (some dNew.id) ∧
    get_recent_revisions page (some dNew.id) = [] ∧
    _handle_full_page cfg (replayState cfg page st page.history.reverse) page ign m u
        = .ok (replayState cfg page st page.history.reverse) ∧
    _handle_revisions_for_page cfg (replayState cfg page st page.history.reverse)
        window = .ok (replayState cfg page st page.history.reverse) := by
  have hrun1 := handle_full_page_clean cfg page st ign m u hskip hwd hht hnd hchain
  have hlast : page.history.reverse.getLast? = some dNew := by
    rw [List.getLast?_reverse, hhist]
    rfl
  obtain ⟨hw1, hh1, hf1⟩ :=
    replayState_lookups cfg page page.history.reverse st dNew hlast
  have hrec2 : get_last_saved_revision (replayState cfg page st page.history.reverse)
      (pagePath cfg page.name) = .ok (some dNew.id) := by
    refine get_last_saved_revision_head _ _ (mkCommit cfg page dNew) dNew.reason
      dNew.id ?_ hf1 rfl hcanon
    rw [hw1]
    rfl
  have hdiff : get_recent_revisions page (some dNew.id) = [] := by
    simp [get_recent_revisions, pageRevisionRefs, hhist, collectNewer]
  refine ⟨hrun1, hrec2, hdiff, ?_, ?_⟩
  · unfold _handle_full_page
    rw [hskip]
    simp only [Bool.false_eq_true, if_false]
    rw [hrec2]
    dsimp only
    rw [hdiff]
    rfl
  · cases hw : window with
    | nil =>
      rw [hwin] at hw
      simp at hw
    | cons first frest =>
      have hfp : first.page = page := hwpage first (by rw [hw]; simp)
      unfold _handle_revisions_for_page
      dsimp only
      rw [hfp, hrec2]
      dsimp only
      have hidx : List.findIdx? (fun r => some r.id == some dNew.id) (first :: frest)
          = some wpre.length := by
        rw [← hw, hwin]
        have := findIdxAux_append_singleton (fun r => some r.id == some dNew.id) wpre
          (RevisionRef.mk dNew.id page)
          (fun x hx => beq_eq_false_iff_ne.mpr (by simpa using hwpre x hx))
          (by simp) 0
        simpa using this
      rw [hidx]
      dsimp only
      have hdrop : (first :: frest).drop (wpre.length + 1) = [] := by
        rw [← hw, hwin]
        have hlen : (wpre ++ [RevisionRef.mk dNew.id page]).length = wpre.length + 1 := by
          simp
        rw [← hlen, List.drop_length]
      rw [hdrop]
      rfl

def c3cfg : Config := Config.mk "s" none

def c3dOld : RevisionData :=
  RevisionData.mk "00000000-0000-4000-8000-000000000001" (some "alice") 100 (some "start") "A"

def c3dNew : RevisionData :=
  RevisionData.mk "00000000-0000-4000-8000-000000000002" none 200 none "B"

def c3page : Page := Page.mk "p" 0 true [c3dNew, c3dOld]

def c3st0 : GitState := GitState.mk [] [] []

def c3st1 : GitState := replayState c3cfg c3page c3st0 c3page.history.reverse

theorem c3_idempotent_second_run_witness :
    _handle_full_page c3cfg c3st0 c3page none true true = .ok c3st1 ∧
    get_last_saved_revision c3st1 (pagePath c3cfg c3page.name) = .ok (some c3dNew.id) ∧
    get_recent_revisions c3page (some c3dNew.id) = [] ∧
    _handle_full_page c3cfg c3st1 c3page none true true = .ok c3st1 ∧
    _handle_revisions_for_page c3cfg c3st1 [RevisionRef.mk c3dNew.id c3page]
      = .ok c3st1 := by
  exact c3_idempotent_second_run c3cfg c3page c3st0 none true true c3dNew [c3dOld]
    [RevisionRef.mk c3dNew.id c3page] [] rfl (by decide) rfl rfl (by decide)
    (by simp [c3page, c3dOld, c3dNew, List.chain'_cons]) (by decide) rfl (by decide) (by decide)

/-- The page used to refute C3 and C4 as stated: two revisions whose
contents are identical, so the second `git commit` exits nonzero (nothing to
commit) and is silently skipped. -/
def dupOld : RevisionData :=
  RevisionData.mk "00000000-0000-4000-8000-000000000001" (some "a") 100 none "A"

def dupNew : RevisionData :=
  RevisionData.mk "00000000-0000-4000-8000-000000000002" (some "a") 200 none "A"

def dupPage : Page := Page.mk "dup" 0 true [dupNew, dupOld]

def dupRun : Except SyncError GitState :=
  _handle_full_page c3cfg (GitState.mk [] [] []) dupPage none true true

/-- C3 is false as stated: after a completed full run on `dupPage` (file
initially absent, source state identical on both runs), the recovered cursor
is the older revision id, not the newest one, and the diff computed from it
is not empty — because the newest revision's commit silently failed (its
content equals the previous revision's). -/
theorem c3_counterexample :
    dupRun.map (fun st1 => get_last_saved_revision st1 (pagePath c3cfg dupPage.name))
        = .ok (.ok (some dupOld.id)) ∧
    dupOld.id ≠ dupNew.id ∧
    dupPage.history.head? = some dupNew ∧
    get_recent_revisions dupPage (some dupOld.id) = [RevisionRef.mk dupNew.id dupPage] := by
  decide

/-- C4 (amended): a completed full sync of a page with `N` revisions and no
prior data for its file emits, provided consecutive revision contents are
distinct (so git exits zero for every commit), exactly `N` commits — one per
revision, none repeated, none skipped: the encoded revision ids of the new
commits, in the order committed, are exactly the source's revision ids
oldest first, and both the author and the committer timestamps are
non-decreasing in commit order, matching revision creation order. -/
theorem c4_full_sync_commits (cfg : Config) (page : Page) (st : GitState)
    (ign : Option (List String)) (m u : Bool)
    (hskip : fullPageSkip ign m u page = false)
    (hwd : st.workdir.lookup (pagePath cfg page.name) = none)
    (hht : st.headTree.lookup (pagePath cfg page.name) = none)
    (hvalid : ∀ d ∈ page.history,
      d.id.toList ≠ [] ∧ ∀ c ∈ d.id.toList, c.isWhitespace = false)
    (hnd : (page.history.map RevisionData.id).Nodup)
    (hchain : List.Chain' (fun a b : RevisionData => a.content ≠ b.content)
      page.history.reverse)
    (hts : List.Chain' (fun a b : RevisionData => b.timestamp ≤ a.timestamp)
      page.history) :
    _handle_full_page cfg st page ign m u
        = .ok (replayState cfg page st page.history.reverse) ∧
    (replayState cfg page st page.history.reverse).log
        = (page.history.reverse.map (mkCommit cfg page)).reverse ++ st.log ∧
    (page.history.reverse.map (mkCommit cfg page)).length = page.history.length ∧
    (page.history.reverse.map (mkCommit cfg page)).map encodedRevisionId
        = page.history.reverse.map (fun d => some d.id) ∧
    List.Chain' (fun a b : GitCommit => a.authorDate ≤ b.authorDate)
      (page.history.reverse.map (mkCommit cfg page)) ∧
    List.Chain' (fun a b : GitCommit => a.committerDate ≤ b.committerDate)
      (page.history.reverse.map (mkCommit cfg page)) := by
  have hts2 : List.Chain' (fun a b : RevisionData => a.timestamp ≤ b.timestamp)
      page.history.reverse := by
    rw [List.chain'_reverse]
    exact hts
  refine ⟨handle_full_page_clean cfg page st ign m u hskip hwd hht hnd hchain,
    replayState_log cfg page page.history.reverse st, by simp, ?_, ?_, ?_⟩
  · rw [List.map_map]
    refine List.map_congr_left ?_
    intro d hd
    have hd2 : d ∈ page.history := by simpa using hd
    obtain ⟨hne, hws⟩ := hvalid d hd2
    show lastWsToken (mkCommit cfg page d).message = some d.id
    exact lastWsToken_commitMessageFor d.reason d.id hne hws
  · rw [List.chain'_map]
    exact hts2
  · rw [List.chain'_map]
    exact hts2

def c4dMid : RevisionData :=
  RevisionData.mk "00000000-0000-4000-8000-000000000003" (some "b") 150 (some "mid") "M"

def c4page : Page := Page.mk "p" 0 true [c3dNew, c4dMid, c3dOld]

theorem c4_full_sync_commits_witness :
    _handle_full_page c3cfg c3st0 c4page none true true
        = .ok (replayState c3cfg c4page c3st0 c4page.history.reverse) ∧
    (replayState c3cfg c4page c3st0 c4page.history.reverse).log
        = (c4page.history.reverse.map (mkCommit c3cfg c4page)).reverse ++ c3st0.log ∧
    (c4page.history.reverse.map (mkCommit c3cfg c4page)).length = c4page.history.length ∧
    (c4page.history.reverse.map (mkCommit c3cfg c4page)).map encodedRevisionId
        = c4page.history.reverse.map (fun d => some d.id) ∧
    List.Chain' (fun a b : GitCommit => a.authorDate ≤ b.authorDate)
      (c4page.history.reverse.map (mkCommit c3cfg c4page)) ∧
    List.Chain' (fun a b : GitCommit => a.committerDate ≤ b.committerDate)
      (c4page.history.reverse.map (mkCommit c3cfg c4page)) := by
  exact c4_full_sync_commits c3cfg c4page c3st0 none true true (by decide) rfl rfl
    (by decide) (by decide)
    (by simp [List.chain'_cons, c3dOld, c3dNew, c4dMid, c4page])
    (by simp [List.chain'_cons, c3dOld, c3dNew, c4dMid, c4page])

/-- C4 is false as stated: a completed full sync of the two-revision page
`dupPage` from an empty store emits exactly one commit, not two — the second
revision's content equals the first's, so its `git commit` exits nonzero and
is silently dropped. -/
theorem c4_counterexample :
    dupPage.history.length = 2 ∧
    dupRun.map (fun st1 => st1.log.length) = .ok 1 := by
  decide

/-- C5 (amended): cursor recovery returns `none` (not an error) whenever the
file does not exist, and whenever some commit touches the path but the final
whitespace-delimited token of the log output does not parse as a UUID; more
generally, whenever some commit touches the path the recovery never raises.
The one remaining case — the file exists on disk while no commit touches its
path — raises `IndexError` (see the counterexample). -/
theorem c5_cursor_recovery_fallback :
    (∀ (st : GitState) (file_path : String), st.workdir.lookup file_path = none →
        get_last_saved_revision st file_path = .ok none) ∧
    (∀ (st : GitState) (file_path : String) (tok : String),
        lastWsToken (gitLogOutput st file_path) = some tok → pyUUID tok = none →
        get_last_saved_revision st file_path = .ok none) ∧
    (∀ (st : GitState) (file_path : String) (cm : GitCommit),
        st.log.find? (fun x => x.path == file_path) = some cm →
        (get_last_saved_revision st file_path).isOk = true) := by
  refine ⟨?_, ?_, ?_⟩
  · intro st file_path h
    unfold get_last_saved_revision
    rw [h]
    rfl
  · intro st file_path tok htok hparse
    unfold get_last_saved_revision
    cases hwd : (st.workdir.lookup file_path).isNone with
    | true => rfl
    | false =>
      simp only [Bool.false_eq_true, if_false]
      rw [htok]
      simp only [hparse]
  · intro st file_path cm hfind
    unfold get_last_saved_revision
    cases hwd : (st.workdir.lookup file_path).isNone with
    | true => rfl
    | false =>
      simp only [Bool.false_eq_true, if_false]
      have hout : gitLogOutput st file_path = gitLogMedium cm := by
        unfold gitLogOutput
        rw [hfind]
      have htok : lastWsToken (gitLogOutput st file_path) ≠ none := by
        rw [hout]
        unfold lastWsToken
        intro hmap
        have hnone : lastTokList (gitLogMedium cm).toList = none := by
          cases hfix : lastTokList (gitLogMedium cm).toList with
          | none => rfl
          | some t => rw [hfix] at hmap; simp at hmap
        have hallws := (lastTokList_eq_none_iff _).mp hnone
        obtain ⟨B, hB⟩ : ∃ B, gitLogMedium cm
            = "commit 0000000000000000000000000000000000000000\nAuthor: " ++ B :=
          ⟨_, by rw [gitLogMedium, String.append_assoc, String.append_assoc,
            String.append_assoc, String.append_assoc, String.append_assoc,
            String.append_assoc, String.append_assoc]⟩
        have hcmem : 'c' ∈ (gitLogMedium cm).toList := by
          rw [hB, toList_append]
          refine List.mem_append.mpr (Or.inl ?_)
          decide
        have := hallws (Char.ofNat 99) (by exact hcmem)
        simp at this
      cases htok2 : lastWsToken (gitLogOutput st file_path) with
      | none => exact absurd htok2 htok
      | some tok =>
        cases hparse : pyUUID tok <;> simp [hparse, Except.isOk, Except.toBool]

/-- C5 is false as stated: with a file on disk at the path but no commit
history touching it, cursor recovery raises `IndexError` (`output_list[-1]`
on empty `git log` output) instead of returning `none`. -/
theorem c5_counterexample :
    (GitState.mk [("s/p.md", "x")] [] []).log.find?
        (fun cm => cm.path == "s/p.md") = none ∧
    get_last_saved_revision (GitState.mk [("s/p.md", "x")] [] []) "s/p.md"
        = .error .indexError := by
  decide

def c5badState : GitState :=
  GitState.mk [("s/p.md", "x")] [("s/p.md", "x")]
    [GitCommit.mk "s/p.md" "hello world" "a" "e" 1 "a" "e" 1]

theorem c5_cursor_recovery_fallback_witness :
    get_last_saved_revision (GitState.mk [] [] []) "s/p.md" = .ok none ∧
    get_last_saved_revision c5badState "s/p.md" = .ok none ∧
    (get_last_saved_revision c5badState "s/p.md").isOk = true := by
  refine ⟨c5_cursor_recovery_fallback.1 (GitState.mk [] [] []) "s/p.md" rfl,
    c5_cursor_recovery_fallback.2.1 c5badState "s/p.md" "world" (by decide) (by decide),
    c5_cursor_recovery_fallback.2.2 c5badState "s/p.md"
      (GitCommit.mk "s/p.md" "hello world" "a" "e" 1 "a" "e" 1) (by decide)⟩

/-- C6 (amended): a nonzero exit status of the `git commit` subprocess is
silently ignored — `subprocess.run` is called without checking, so the
failure neither propagates nor aborts the replay: `add_commit` returns the
unchanged prior state, `save_revision` still reports success, and the replay
loop continues committing the subsequent revisions. -/
theorem c6_commit_failure_ignored :
    (∀ (cfg : Config) (st : GitState) (file_path : String) (ts : Int)
        (author : Option String) (msg : String) (e : GitError),
      gitCommitCmd st (GitCommit.mk file_path msg (commitName author)
          (commitEmail cfg author) ts (commitName author) (commitEmail cfg author) ts)
        = .error e →
      add_commit cfg st file_path ts author msg = st) ∧
    (∀ (cfg : Config) (st st2 : GitState) (r : RevisionRef) (rs : List RevisionRef),
      save_revision cfg st r = .ok st2 →
      saveAll cfg st (r :: rs) = saveAll cfg st2 rs) ∧
    (∀ (cfg : Config) (st : GitState) (page : Page) (d : RevisionData),
      pageRevision page d.id = some d →
      ∃ st2, save_revision cfg st (RevisionRef.mk d.id page) = .ok st2) := by
  refine ⟨?_, ?_, ?_⟩
  · intro cfg st file_path ts author msg e hfail
    unfold add_commit
    dsimp only
    rw [hfail]
  · intro cfg st st2 r rs hok
    show (match save_revision cfg st r with
      | .error e => .error e
      | .ok st3 => saveAll cfg st3 rs) = saveAll cfg st2 rs
    rw [hok]
  · intro cfg st page d hres
    unfold save_revision
    rw [hres]
    exact ⟨_, rfl⟩

def c6dOld : RevisionData :=
  RevisionData.mk "00000000-0000-4000-8000-000000000001" (some "a") 100 none "A"

def c6dMid : RevisionData :=
  RevisionData.mk "00000000-0000-4000-8000-000000000002" (some "a") 200 none "A"

def c6dNew : RevisionData :=
  RevisionData.mk "00000000-0000-4000-8000-000000000003" (some "a") 300 none "B"

def c6page : Page := Page.mk "pg" 0 true [c6dNew, c6dMid, c6dOld]

/-- The state after the first revision of `c6page` has been committed. -/
def c6st1 : GitState :=
  GitState.mk [("s/pg.md", "A")] [("s/pg.md", "A")]
    [GitCommit.mk "s/pg.md" "00000000-0000-4000-8000-000000000001" "a" "a@s.reddit"
      100 "a" "a@s.reddit" 100]

/-- C6 is false as stated: replaying `c6page` (contents A, A, B oldest
first), the second revision's `git commit` fails with a nonzero exit
(nothing to commit), yet `save_revision` reports success with the commit log
unchanged, the run is not aborted, and the third revision is still
committed: the completed run holds exactly the first and third revisions'
commits. -/
theorem c6_counterexample :
    gitCommitCmd (GitState.mk (("s/pg.md", "A") :: c6st1.workdir) c6st1.headTree c6st1.log)
        (GitCommit.mk "s/pg.md" "00000000-0000-4000-8000-000000000002" "a" "a@s.reddit"
          200 "a" "a@s.reddit" 200)
      = .error .nothingToCommit ∧
    save_revision c3cfg c6st1 (RevisionRef.mk c6dMid.id c6page)
      = .ok (GitState.mk (("s/pg.md", "A") :: c6st1.workdir) c6st1.headTree c6st1.log) ∧
    (_handle_full_page c3cfg (GitState.mk [] [] []) c6page none true true).map
        (fun st => st.log.map GitCommit.message)
      = .ok ["00000000-0000-4000-8000-000000000003",
          "00000000-0000-4000-8000-000000000001"] := by
  decide

def c6failState : GitState := GitState.mk [] [("p", "A")] []

theorem c6_commit_failure_ignored_witness :
    add_commit c3cfg c6failState "p" 1 (some "a") "m" = c6failState ∧
    saveAll c3cfg c6st1 (RevisionRef.mk c6dMid.id c6page :: [])
      = saveAll c3cfg (GitState.mk (("s/pg.md", "A") :: c6st1.workdir)
          c6st1.headTree c6st1.log) [] ∧
    ∃ st2, save_revision c3cfg c6st1 (RevisionRef.mk c6dMid.id c6page) = .ok st2 := by
  refine ⟨c6_commit_failure_ignored.1 c3cfg c6failState "p" 1 (some "a") "m"
      .nothingToCommit (by decide),
    c6_commit_failure_ignored.2.1 c3cfg c6st1 _ (RevisionRef.mk c6dMid.id c6page) []
      (by decide),
    c6_commit_failure_ignored.2.2 c3cfg c6st1 c6page c6dMid (by decide)⟩

/-- C7 (amended): for every revision committed by the replay, the commit
message equals the reason, a blank line, and the revision id when a
*non-empty* reason is present, and equals just the revision id otherwise
(absent reason, and also the falsy empty-string reason — see the
counterexample); hence the revision id is the final whitespace-delimited
token of every such commit message; and the author and committer timestamps
of the commit both equal the revision's original timestamp. -/
theorem c7_commit_message_shape (cfg : Config) (page : Page) (st : GitState)
    (d : RevisionData) (hres : pageRevision page d.id = some d)
    (hsucc : st.headTree.lookup (pagePath cfg page.name) ≠ some d.content)
    (hne : d.id.toList ≠ []) (hws : ∀ c ∈ d.id.toList, c.isWhitespace = false) :
    save_revision cfg st (RevisionRef.mk d.id page) = .ok (applyRev cfg page st d) ∧
    (applyRev cfg page st d).log.head? = some (mkCommit cfg page d) ∧
    ((d.reason = none ∨ d.reason = some "") → (mkCommit cfg page d).message = d.id) ∧
    (∀ re, d.reason = some re → re ≠ "" →
      (mkCommit cfg page d).message = re ++ "\n\n" ++ d.id) ∧
    encodedRevisionId (mkCommit cfg page d) = some d.id ∧
    (mkCommit cfg page d).authorDate = d.timestamp ∧
    (mkCommit cfg page d).committerDate = d.timestamp := by
  refine ⟨save_revision_ok cfg page st d hres hsucc, rfl, ?_, ?_, ?_, rfl, rfl⟩
  · intro h
    show commitMessageFor d.reason d.id = d.id
    rcases h with h | h <;> simp [commitMessageFor, h]
  · intro re hre hre2
    show commitMessageFor d.reason d.id = re ++ "\n\n" ++ d.id
    simp [commitMessageFor, hre, hre2]
  · exact lastWsToken_commitMessageFor d.reason d.id hne hws

def c7d : RevisionData :=
  RevisionData.mk "00000000-0000-4000-8000-000000000001" (some "a") 100 (some "") "A"

def c7page : Page := Page.mk "p" 0 true [c7d]

theorem c7_commit_message_shape_witness :
    save_revision c3cfg (GitState.mk [] [] []) (RevisionRef.mk c3dOld.id c3page)
        = .ok (applyRev c3cfg c3page (GitState.mk [] [] []) c3dOld) ∧
    (applyRev c3cfg c3page (GitState.mk [] [] []) c3dOld).log.head?
        = some (mkCommit c3cfg c3page c3dOld) ∧
    (mkCommit c3cfg c3page c3dOld).message = "start" ++ "\n\n" ++ c3dOld.id ∧
    encodedRevisionId (mkCommit c3cfg c3page c3dOld) = some c3dOld.id ∧
    (mkCommit c3cfg c3page c3dOld).authorDate = c3dOld.timestamp := by
  have h := c7_commit_message_shape c3cfg c3page (GitState.mk [] [] []) c3dOld
    (by decide) (by decide) (by decide) (by decide)
  exact ⟨h.1, h.2.1, h.2.2.2.1 "start" (by decide) (by decide), h.2.2.2.2.1, h.2.2.2.2.2.1⟩

/-- C7 is false as stated: a revision carrying the present-but-empty reason
`some ""` is committed with just the revision id as its message (Python
truthiness treats the empty reason as absent), not with the
reason-blank-line-id form the claim prescribes for every present reason. -/
theorem c7_counterexample :
    c7d.reason = some "" ∧
    (_handle_full_page c3cfg (GitState.mk [] [] []) c7page none true true).map
        (fun st => st.log.map GitCommit.message) = .ok [c7d.id] ∧
    c7d.id ≠ "" ++ "\n\n" ++ c7d.id := by
  decide

/-! Lemmas for the page-selection predicates. -/

lemma contains_eq_mem (l : List String) (a : String) : l.contains a = true ↔ a ∈ l := by
  simp [List.contains, List.elem_iff]

lemma ifChain3 (c1 c2 c3 : Bool) :
    (if c1 then true else if c2 then true else if c3 then true else false) = false ↔
      (c1 = false ∧ c2 = false ∧ c3 = false) := by
  cases c1 <;> cases c2 <;> cases c3 <;> simp

lemma ifChain4 (c1 c2 c3 c4 : Bool) :
    (if c1 then true else if c2 then true else if c3 then true
      else if c4 then true else false) = false ↔
      (c1 = false ∧ c2 = false ∧ c3 = false ∧ c4 = false) := by
  cases c1 <;> cases c2 <;> cases c3 <;> cases c4 <;> simp

lemma ignoreListCond_false_iff (l : List String) (name : String) :
    (!l.isEmpty && l.contains name) = false ↔ name ∉ l := by
  by_cases h : name ∈ l
  · have hc : l.contains name = true := (contains_eq_mem l name).mpr h
    have hne : l ≠ [] := List.ne_nil_of_mem h
    have hie : l.isEmpty = false := by
      rw [← Bool.not_eq_true, List.isEmpty_iff]
      exact hne
    simp [hc, hie, h]
  · have hc : l.contains name = false := by
      rw [← Bool.not_eq_true, contains_eq_mem]
      exact h
    simp [hc, h]

lemma ignoreCond_false_iff (ign : Option (List String)) (name : String) :
    (truthyList ign && (ign.getD []).contains name) = false ↔ name ∉ ign.getD [] := by
  cases ign with
  | none => simp [truthyList]
  | some l =>
    show (!l.isEmpty && l.contains name) = false ↔ name ∉ l
    exact ignoreListCond_false_iff l name

lemma modCond_false_iff (m : Bool) (page : Page) :
    (!m && page.permlevel == PERMLEVEL_MOD_ONLY) = false ↔
      (page.permlevel ≠ PERMLEVEL_MOD_ONLY ∨ m = true) := by
  cases m
  · simp [beq_eq_false_iff_ne]
  · simp

lemma unlistedCond_false_iff (u : Bool) (page : Page) :
    (!u && !page.listed) = false ↔ (page.listed = true ∨ u = true) := by
  cases u <;> cases hl : page.listed <;> simp

lemma fullPageSkip_false_iff (ign : Option (List String)) (m u : Bool) (page : Page) :
    fullPageSkip ign m u page = false ↔
      (page.name ∉ ign.getD [] ∧
        (page.permlevel ≠ PERMLEVEL_MOD_ONLY ∨ m = true) ∧
        (page.listed = true ∨ u = true)) := by
  unfold fullPageSkip
  rw [ifChain3, ignoreCond_false_iff, modCond_false_iff, unlistedCond_false_iff]

lemma allowCond_false_iff (pl : Option (List String)) (name : String) :
    (truthyList pl && !(pl.getD []).contains name) = false ↔
      (truthyList pl = false ∨ name ∈ pl.getD []) := by
  cases hpl : truthyList pl <;> simp [contains_eq_mem]

/-- C8 (amended): in both modes a page is processed exactly when the
conjunction holds: the page name is not in the ignore-list, no *non-empty*
allow-list excludes it (a `None` and an empty allow-list behave alike —
Python truthiness; see the counterexample for the empty list), the page is
not mod-only or mod inclusion is on, and the page is listed or unlisted
inclusion is on.  Both modes are characterized by the same symmetric
conjunction, so the evaluation order of the predicates does not affect
which pages get processed. -/
theorem c8_selection_conjunction (page_list : Option (List String))
    (ignore_list : List String) (include_mod include_unlisted : Bool) (page : Page) :
    (fullModeProcesses page_list ignore_list include_mod include_unlisted page = true ↔
      (page.name ∉ ignore_list ∧
        (truthyList page_list = false ∨ page.name ∈ page_list.getD []) ∧
        (page.permlevel ≠ PERMLEVEL_MOD_ONLY ∨ include_mod = true) ∧
        (page.listed = true ∨ include_unlisted = true))) ∧
    (mainRecentSkip page_list ignore_list include_mod include_unlisted page = false ↔
      (page.name ∉ ignore_list ∧
        (truthyList page_list = false ∨ page.name ∈ page_list.getD []) ∧
        (page.permlevel ≠ PERMLEVEL_MOD_ONLY ∨ include_mod = true) ∧
        (page.listed = true ∨ include_unlisted = true))) := by
  constructor
  · unfold fullModeProcesses
    rcases ht : truthyList page_list
    · simp only [Bool.false_eq_true, if_false, Bool.not_eq_true']
      rw [fullPageSkip_false_iff]
      simp only [Option.getD_some]
      tauto
    · simp only [if_true]
      rw [Bool.and_eq_true, Bool.not_eq_true', fullPageSkip_false_iff, contains_eq_mem]
      simp only [Option.getD_some]
      constructor
      · rintro ⟨h1, h2, h3, h4⟩
        exact ⟨h2, Or.inr h1, h3, h4⟩
      · rintro ⟨h2, h1, h3, h4⟩
        rcases h1 with h1 | h1
        · exact absurd h1 (by simp)
        · exact ⟨h1, h2, h3, h4⟩
  · unfold mainRecentSkip
    rw [ifChain4, allowCond_false_iff, ignoreListCond_false_iff, modCond_false_iff,
      unlistedCond_false_iff]
    tauto

theorem c8_selection_conjunction_witness :
    fullModeProcesses none ["x"] true true (Page.mk "q" 0 true []) = true ∧
    mainRecentSkip none ["x"] true true (Page.mk "q" 0 true []) = false := by
  refine ⟨(c8_selection_conjunction none ["x"] true true (Page.mk "q" 0 true [])).1.mpr
      (by simp [truthyList, PERMLEVEL_MOD_ONLY]),
    (c8_selection_conjunction none ["x"] true true (Page.mk "q" 0 true [])).2.mpr
      (by simp [truthyList, PERMLEVEL_MOD_ONLY])⟩

/-- C8 is false as stated: with an *empty but explicitly given* allow-list
(`some []`), the page name is absent from the allow-list, so the claimed
conjunction fails, yet both modes process the page — `main` treats the falsy
empty list exactly like no allow-list (`if include_full and not page_list`
and `if page_list and page_name not in page_list`). -/
theorem c8_counterexample :
    fullModeProcesses (some []) [] true true (Page.mk "q" 0 true []) = true ∧
    mainRecentSkip (some []) [] true true (Page.mk "q" 0 true []) = false ∧
    some ([] : List String) ≠ (none : Option (List String)) ∧
    "q" ∉ ([] : List String) := by
  decide

/-- C9: with no email override configured, the author and the committer
email of every commit `add_commit` creates are both
`<author>@<subreddit>.reddit` built from the revision's author by f-string
interpolation (`pyFStrOpt`: a present author is inserted verbatim, an absent
one renders as Python's `None`), and for an absent author (deleted account)
the commit's author and committer *name* fall back to the fixed sentinel
`[deleted]` instead of the missing author value. -/
theorem c9_commit_identity (cfg : Config) (st st2 : GitState) (file_path : String)
    (ts : Int) (author : Option String) (msg : String) (cm : GitCommit)
    (hover : cfg.email = none)
    (hrun : add_commit cfg st file_path ts author msg = st2)
    (hnew : st2.log = cm :: st.log) :
    cm.authorEmail = pyFStrOpt author ++ "@" ++ cfg.subredditName ++ ".reddit" ∧
    cm.committerEmail = pyFStrOpt author ++ "@" ++ cfg.subredditName ++ ".reddit" ∧
    (∀ a, author = some a → a ≠ "" →
      cm.authorEmail = a ++ "@" ++ cfg.subredditName ++ ".reddit") ∧
    (author = none → cm.authorName = "[deleted]" ∧ cm.committerName = "[deleted]") := by
  have hemail : commitEmail cfg author
      = pyFStrOpt author ++ "@" ++ cfg.subredditName ++ ".reddit" := by
    unfold commitEmail
    rw [hover]
  have hcm : cm = GitCommit.mk file_path msg (commitName author)
      (commitEmail cfg author) ts (commitName author) (commitEmail cfg author) ts := by
    unfold add_commit at hrun
    dsimp only at hrun
    set c0 : GitCommit := GitCommit.mk file_path msg (commitName author)
      (commitEmail cfg author) ts (commitName author) (commitEmail cfg author) ts with hc0
    cases hcmd : gitCommitCmd st c0 with
    | ok st3 =>
      rw [hcmd] at hrun
      unfold gitCommitCmd at hcmd
      cases hwd : st.workdir.lookup c0.path with
      | none =>
        rw [hwd] at hcmd
        dsimp only at hcmd
        exact absurd hcmd (by simp)
      | some content =>
        rw [hwd] at hcmd
        dsimp only at hcmd
        by_cases hh : (st.headTree.lookup c0.path == some content) = true
        · rw [if_pos hh] at hcmd
          exact absurd hcmd (by simp)
        · rw [if_neg hh] at hcmd
          obtain rfl : _ = st3 := Except.ok.inj hcmd
          rw [← hrun] at hnew
          have := List.head_eq_of_cons_eq hnew.symm
          exact this
    | error e =>
      rw [hcmd] at hrun
      rw [← hrun] at hnew
      have hlen := congrArg List.length hnew
      simp at hlen
  subst hcm
  refine ⟨hemail, hemail, ?_, ?_⟩
  · intro a ha _
    rw [hemail, ha]
    rfl
  · intro ha
    rw [ha]
    exact ⟨rfl, rfl⟩

def c9state : GitState := GitState.mk [("s/p.md", "X")] [] []

theorem c9_commit_identity_witness :
    (GitCommit.mk "s/p.md" "m" "[deleted]" "None@s.reddit" 5 "[deleted]"
        "None@s.reddit" 5).authorEmail
      = pyFStrOpt none ++ "@" ++ (Config.mk "s" none).subredditName ++ ".reddit" ∧
    (GitCommit.mk "s/p.md" "m" "[deleted]" "None@s.reddit" 5 "[deleted]"
        "None@s.reddit" 5).authorName = "[deleted]" := by
  have h := c9_commit_identity (Config.mk "s" none) c9state
    (GitState.mk c9state.workdir [("s/p.md", "X")]
      [GitCommit.mk "s/p.md" "m" "[deleted]" "None@s.reddit" 5 "[deleted]"
        "None@s.reddit" 5])
    "s/p.md" 5 none "m"
    (GitCommit.mk "s/p.md" "m" "[deleted]" "None@s.reddit" 5 "[deleted]"
      "None@s.reddit" 5)
    rfl (by decide) rfl
  exact ⟨h.1, (h.2.2.2 rfl).1⟩

/-- C10: whenever cursor recovery returns a revision id, that id is the
canonical rendering of a UUID — `uuidCanonical` of 32 nibble values, i.e.
lowercase hyphenated — regardless of the textual form of the commit
message's final token; consequently a source revision whose id equals the
recovered cursor has an id in canonical UUID form. -/
theorem c10_canonical_cursor (st : GitState) (file_path : String) (v : String)
    (h : get_last_saved_revision st file_path = .ok (some v)) :
    ∃ ns, ns.length = 32 ∧ (∀ n ∈ ns, n < 16) ∧ v = uuidCanonical ns ∧
      ∀ r : RevisionRef, r.id = v → r.id = uuidCanonical ns := by
  unfold get_last_saved_revision at h
  by_cases hwd : ((st.workdir.lookup file_path).isNone : Bool) = true
  · rw [if_pos hwd] at h
    exact absurd h (by simp)
  · rw [if_neg hwd] at h
    cases htok : lastWsToken (gitLogOutput st file_path) with
    | none =>
      rw [htok] at h
      exact absurd h (by simp)
    | some tok =>
      rw [htok] at h
      dsimp only at h
      cases hp : pyUUID tok with
      | none =>
        rw [hp] at h
        simp at h
      | some ns =>
        rw [hp] at h
        obtain ⟨hlen, hlt⟩ := pyUUID_spec tok ns hp
        have hv : v = uuidCanonical ns := by
          have := Except.ok.inj h
          exact (Option.some.inj this).symm
        exact ⟨ns, hlen, hlt, hv, fun r hr => by rw [hr, hv]⟩

def c10state : GitState :=
  GitState.mk [("s/p.md", "x")] [("s/p.md", "x")]
    [GitCommit.mk "s/p.md" "fix\n\nurn:uuid:123E4567E89B12D3A456426614174000"
      "a" "e" 1 "a" "e" 1]

theorem c10_canonical_cursor_witness :
    ∃ ns, ns.length = 32 ∧ (∀ n ∈ ns, n < 16) ∧
      "123e4567-e89b-12d3-a456-426614174000" = uuidCanonical ns ∧
      ∀ r : RevisionRef, r.id = "123e4567-e89b-12d3-a456-426614174000" →
        r.id = uuidCanonical ns := by
  exact c10_canonical_cursor c10state "s/p.md"
    "123e4567-e89b-12d3-a456-426614174000" (by decide)

end WikiSync
